import Mathlib

/-!
Verification of `projector.py` (latent-space projection for a StyleGAN-like
generator).  The Python source is shallowly embedded: pure numeric code
becomes functions over `ℚ` or a linear ordered field `K`; the optimization
loop becomes an explicit fold over an abstract per-step update; external
library calls (the generator, the VGG16 network, `scipy`'s Gaussian pdf,
NumPy's PRNG, square roots and cosines from the float library) are passed
in as explicit function parameters and instantiated with their real-number
counterparts (`Real.cos`, `Real.sqrt`, …) in the theorems.
-/

/-! ## Noise-scale schedule (projector.py lines 142-144)

`t = step / num_steps`
`w_noise_scale = w_std * initial_noise_factor * max(0.0, 1.0 - t / noise_ramp_length) ** 2`
-/

def w_noise_scale (w_std initial_noise_factor noise_ramp_length : ℚ)
    (step num_steps : ℕ) : ℚ :=
  let t : ℚ := (step : ℚ) / (num_steps : ℚ)
  w_std * initial_noise_factor * (max 0 (1 - t / noise_ramp_length)) ^ 2

lemma w_noise_scale_antitone_aux {r : ℚ} (hr : 0 < r) {t₁ t₂ : ℚ} (h : t₁ ≤ t₂) :
    (max 0 (1 - t₂ / r)) ^ 2 ≤ (max 0 (1 - t₁ / r)) ^ 2 := by
  have hdiv : t₁ / r ≤ t₂ / r := by
    exact div_le_div_of_nonneg_right h hr.le |>.trans_eq rfl
  have hmax : max 0 (1 - t₂ / r) ≤ max 0 (1 - t₁ / r) :=
    max_le_max le_rfl (by linarith)
  exact pow_le_pow_left₀ (le_max_left _ _) hmax 2

/-- Claim C2: for every step `t` in `[0, num_steps)` the latent-noise
perturbation scale equals
`w_std * initial_noise_factor * max(0, 1 - (t/num_steps)/noise_ramp_length)^2`,
is non-increasing in the step index, and is exactly `0` for every step with
`t/num_steps ≥ noise_ramp_length`. -/
theorem w_noise_scale_schedule (w_std nf r : ℚ) (n : ℕ)
    (hstd : 0 ≤ w_std) (hnf : 0 ≤ nf) (hr : 0 < r) :
    (∀ s : ℕ, w_noise_scale w_std nf r s n =
        w_std * nf * (max 0 (1 - ((s : ℚ) / (n : ℚ)) / r)) ^ 2) ∧
    (∀ s₁ s₂ : ℕ, s₁ ≤ s₂ →
        w_noise_scale w_std nf r s₂ n ≤ w_noise_scale w_std nf r s₁ n) ∧
    (∀ s : ℕ, r ≤ (s : ℚ) / (n : ℚ) → w_noise_scale w_std nf r s n = 0) := by
  refine ⟨fun s => rfl, fun s₁ s₂ h => ?_, fun s h => ?_⟩
  · have hcast : ((s₁ : ℚ)) ≤ (s₂ : ℚ) := by exact_mod_cast h
    rcases Nat.eq_zero_or_pos n with hn | hn
    · subst hn
      simp [w_noise_scale]
    · have hnpos : (0 : ℚ) < (n : ℚ) := by exact_mod_cast hn
      have ht : (s₁ : ℚ) / (n : ℚ) ≤ (s₂ : ℚ) / (n : ℚ) :=
        div_le_div_of_nonneg_right hcast hnpos.le |>.trans_eq rfl
      have := w_noise_scale_antitone_aux hr ht
      unfold w_noise_scale
      have hsn : 0 ≤ w_std * nf := mul_nonneg hstd hnf
      exact mul_le_mul_of_nonneg_left this hsn
  · unfold w_noise_scale
    have h1 : 1 - ((s : ℚ) / (n : ℚ)) / r ≤ 0 := by
      have : (1 : ℚ) ≤ ((s : ℚ) / (n : ℚ)) / r := (one_le_div hr).mpr h
      linarith
    have hmax : max 0 (1 - ((s : ℚ) / (n : ℚ)) / r) = 0 := max_eq_left h1
    simp only [hmax]
    ring

/-- Witness for C2 at concrete inputs: defaults `initial_noise_factor = 1/20`,
`noise_ramp_length = 3/4`, `w_std = 2`, `num_steps = 4`. -/
theorem w_noise_scale_schedule_witness :
    ((0 : ℚ) ≤ 2 ∧ (0 : ℚ) ≤ 1/20 ∧ (0 : ℚ) < 3/4) ∧
    (w_noise_scale 2 (1/20) (3/4) 1 4 ≤ w_noise_scale 2 (1/20) (3/4) 0 4 ∧
     w_noise_scale 2 (1/20) (3/4) 3 4 = 0) := by
  refine ⟨⟨by norm_num, by norm_num, by norm_num⟩, ?_, ?_⟩
  · exact (w_noise_scale_schedule 2 (1/20) (3/4) 4 (by norm_num) (by norm_num)
      (by norm_num)).2.1 0 1 (by norm_num)
  · exact (w_noise_scale_schedule 2 (1/20) (3/4) 4 (by norm_num) (by norm_num)
      (by norm_num)).2.2 3 (by norm_num)

/-! ## Latent statistics (projector.py lines 84-87)

`w_avg = np.mean(w_samples, axis=0)`
`w_std = (np.sum((w_samples - w_avg) ** 2) / w_avg_samples) ** 0.5`

The sample matrix is `w : Fin N → Fin C → K` (`N = w_avg_samples` samples of
the first-layer latent, `C = w_dim`); the square root of the float library is
passed in as `sqrtF` and instantiated with `Real.sqrt`. -/

def wAvg {K : Type} [Field K] (N C : ℕ) (w : Fin N → Fin C → K) (j : Fin C) : K :=
  (∑ i, w i j) / (N : K)

def wStdSq {K : Type} [Field K] (N C : ℕ) (w : Fin N → Fin C → K) : K :=
  (∑ i, ∑ j, (w i j - wAvg N C w j) ^ 2) / (N : K)

def w_std {K : Type} [Field K] (sqrtF : K → K) (N C : ℕ)
    (w : Fin N → Fin C → K) : K :=
  sqrtF (wStdSq N C w)

/-- Squared L2 distance of sample `i` to the element-wise mean. -/
def sampleSqDist {K : Type} [Field K] (N C : ℕ) (w : Fin N → Fin C → K)
    (i : Fin N) : K :=
  ∑ j, (w i j - wAvg N C w j) ^ 2

/-- Modelled from the spec's words: the population RMS of the per-sample L2
distance to the element-wise mean, `sqrt((Σ_i dist_i^2)/N)` with
`dist_i = sqrt(Σ_j (w i j - avg j)^2)`. -/
def w_std_spec {K : Type} [Field K] (sqrtF : K → K) (N C : ℕ)
    (w : Fin N → Fin C → K) : K :=
  sqrtF ((∑ i, sqrtF (sampleSqDist N C w i) ^ 2) / (N : K))

/-- The sample-corrected (Bessel) variant, dividing by `N - 1`; the code does
NOT compute this. -/
def wStdSqBessel {K : Type} [Field K] (N C : ℕ) (w : Fin N → Fin C → K) : K :=
  (∑ i, ∑ j, (w i j - wAvg N C w j) ^ 2) / ((N : K) - 1)

/-- The spec's hand-checkable sample set: 3 samples of length 2. -/
def exampleW : Fin 3 → Fin 2 → ℚ := ![![1, 0], ![0, 1], ![-1, -1]]

/-- Claim C6: the scalar standard deviation equals the population RMS of the
per-sample L2 distance to the element-wise mean, dividing by `N` (and the
`N` divisor differs from the `N-1` sample-corrected variant, witnessed on the
spec's 3-samples-of-length-2 example). -/
theorem w_std_eq_population_rms :
    (∀ (N C : ℕ) (w : Fin N → Fin C → ℝ),
        w_std Real.sqrt N C w = w_std_spec Real.sqrt N C w) ∧
    wStdSq 3 2 exampleW ≠ wStdSqBessel 3 2 exampleW := by
  constructor
  · intro N C w
    unfold w_std w_std_spec wStdSq sampleSqDist
    congr 1
    congr 1
    refine Finset.sum_congr rfl fun i _ => ?_
    rw [Real.sq_sqrt]
    exact Finset.sum_nonneg fun j _ => sq_nonneg _
  · norm_num [wStdSq, wStdSqBessel, wAvg, exampleW, Fin.sum_univ_succ]

/-! ## Pose heatmap encoder (projector.py lines 245-267)

For keypoint `i`, the source reads `x = pose[3i]`, `y = pose[3i+1]`,
`c = pose[3i+2]`, rescales by `ratio = 64 / image_size`, evaluates the
Gaussian heat map (a `scipy` call, abstracted as the parameter `gaussF`),
multiplies the map by `0.0` when `c < 0.4`, stacks the 17 maps with
`np.dstack` and swaps axes 0 and 2 with `transpose(0, -1)` — so channel `i`
of the output at `(a, b)` is map `i` at `(b, a)`. -/

def getHeatMap {K : Type} [Ring K] (gaussF : ℚ → ℚ → Fin 64 → Fin 64 → K)
    (pose : List ℚ) (image_size : ℚ) : Fin 17 → Fin 64 → Fin 64 → K :=
  fun i a b =>
    let x := pose.getD (3 * (i : ℕ)) 0
    let y := pose.getD (3 * (i : ℕ) + 1) 0
    let c := pose.getD (3 * (i : ℕ) + 2) 0
    let ratio : ℚ := 64 / image_size
    let m := gaussF (x * ratio) (y * ratio)
    if c < 2/5 then (0 : K) * m b a else m b a

/-- Claim C7: if keypoint `i`'s confidence (element `3i+2`) is strictly below
`0.4`, channel `i` of the returned `[17, 64, 64]` heatmap is the zero tensor,
whatever the Gaussian evaluates to. -/
theorem getHeatMap_zero_of_low_confidence {K : Type} [Ring K]
    (gaussF : ℚ → ℚ → Fin 64 → Fin 64 → K) (pose : List ℚ) (image_size : ℚ)
    (i : Fin 17) (h : pose.getD (3 * (i : ℕ) + 2) 0 < 2/5) :
    ∀ a b : Fin 64, getHeatMap gaussF pose image_size i a b = 0 := by
  intro a b
  simp only [getHeatMap, if_pos h, zero_mul]

/-- Witness for C7: the all-zero keypoint list has confidence `0 < 0.4` at
keypoint 5, and the corresponding channel entry is `0` even for a Gaussian
stub that is constantly `7`. -/
theorem getHeatMap_zero_of_low_confidence_witness :
    (List.replicate 51 (0 : ℚ)).getD (3 * ((5 : Fin 17) : ℕ) + 2) 0 < 2/5 ∧
    getHeatMap (fun _ _ _ _ => (7 : ℚ)) (List.replicate 51 (0 : ℚ)) 256 5 3 4 = 0 := by
  have hconf : (List.replicate 51 (0 : ℚ)).getD (3 * ((5 : Fin 17) : ℕ) + 2) 0 < 2/5 := by
    have h17 : (3 * ((5 : Fin 17) : ℕ) + 2) = 17 := rfl
    rw [h17]
    norm_num [List.getD, List.getElem?_replicate]
  refine ⟨hconf, ?_⟩
  exact getHeatMap_zero_of_low_confidence (fun _ _ _ _ => (7 : ℚ))
    (List.replicate 51 (0 : ℚ)) 256 5 hconf 3 4

/-! ## image2GAN extra loss terms (projector.py lines 64, 191-200)

`convs = ['conv1', 'conv2', 'conv6', 'conv9']`.  When `image2GAN_method` is
true the loop adds, on every step,
`(target_convs[conv] - synth_convs[conv]).square().sum()` for each of the
four layers plus `nn.MSELoss()(target_images, synth_images)`.  Note that at
line 193 the source computes `synth_convs = vgg16_multi_layers_output(vgg16,
target_images, convs)` — it feeds `target_images`, not the synthesized
images, so both operands of every squared-difference term are the target's
features.  Feature maps and images are flattened to `List K`; the feature
extractor is the parameter `vggFeat`. -/

def convs : List String := ["conv1", "conv2", "conv6", "conv9"]

def sqDiffSum {K : Type} [Ring K] (a b : List K) : K :=
  (List.zipWith (fun x y => (x - y) ^ 2) a b).sum

def mseLoss {K : Type} [Field K] (a b : List K) : K :=
  (List.zipWith (fun x y => (x - y) ^ 2) a b).sum / (a.length : K)

/-- The extra loss contribution of the `image2GAN_method` branch as the source
computes it: both feature arguments are `target_images` (line 193). -/
def image2GANExtra {K : Type} [Field K] (vggFeat : List K → String → List K)
    (target_images synth_images : List K) : K :=
  (convs.map (fun c => sqDiffSum (vggFeat target_images c)
    (vggFeat target_images c))).sum + mseLoss target_images synth_images

/-- Modelled from the spec: the intended branch compares the target's features
with the features of the synthesized (candidate) image at the four layers. -/
def image2GANExtraIntended {K : Type} [Field K]
    (vggFeat : List K → String → List K)
    (target_images synth_images : List K) : K :=
  (convs.map (fun c => sqDiffSum (vggFeat target_images c)
    (vggFeat synth_images c))).sum + mseLoss target_images synth_images

lemma sqDiffSum_self {K : Type} [Ring K] (a : List K) : sqDiffSum a a = 0 := by
  induction a with
  | nil => rfl
  | cons x xs ih =>
    simp only [sqDiffSum, List.zipWith_cons_cons, List.sum_cons] at ih ⊢
    simp [ih]

/-- A concrete feature extractor (`features = the image itself`), target and
candidate exhibiting the divergence. -/
def exFeat : List ℚ → String → List ℚ := fun img _ => img

def exTarget : List ℚ := [1]

def exSynth : List ℚ := [0]

/-- Claim C1 (code bug): in the `image2GAN_method` branch the four
squared-difference feature terms vanish identically — the source feeds the
target image to the feature extractor for both operands — so the branch's
extra loss reduces to the pixel MSE alone, for every feature extractor,
target and candidate; on a concrete input where the candidate differs from
the target, the intended target-vs-candidate loss differs from what the code
computes. -/
theorem image2GANExtra_ignores_candidate_features :
    (∀ (vggFeat : List ℚ → String → List ℚ) (t s : List ℚ),
        image2GANExtra vggFeat t s = mseLoss t s) ∧
    image2GANExtraIntended exFeat exTarget exSynth ≠
      image2GANExtra exFeat exTarget exSynth := by
  constructor
  · intro vggFeat t s
    simp [image2GANExtra, convs, sqDiffSum_self]
  · norm_num [image2GANExtraIntended, image2GANExtra, convs, exFeat, exTarget,
      exSynth, sqDiffSum, mseLoss]

/-! ## Optimization loop skeleton (projector.py lines 119-220)

The loop state is the latent `w_opt` plus the noise buffers.  The numeric
body of one step — synthesis forward pass, loss, `loss.backward()`,
`optimizer.step()` (Adam over `[w_opt] + list(noise_bufs.values())`) — is the
abstract parameter `adam`, whose last argument is the latent actually fed to
synthesis, `ws = w_opt + w_noise` (lines 153-154; the Gaussian perturbation
`w_noise` enters only there).  After the optimizer update the new latent is
recorded into `w_out[step]` (line 212) and the noise buffers are re-normalized
in place (lines 215-218, the parameter `nrm`). -/

structure PState (W N : Type) where
  w : W
  noise : N

def projectStep {W N : Type} [Add W]
    (adam : ℕ → PState W N → W → PState W N) (wnoise : ℕ → W) (nrm : N → N)
    (t : ℕ) (s : PState W N) : PState W N × W :=
  let s1 := adam t s (s.w + wnoise t)
  (⟨s1.w, nrm s1.noise⟩, s1.w)

/-- `for step in range(num_steps): ...` with the trajectory accumulated in
order; the loop has no break, so it always runs `num_steps` iterations. -/
def runLoop {W N : Type} [Add W]
    (adam : ℕ → PState W N → W → PState W N) (wnoise : ℕ → W) (nrm : N → N)
    (num_steps : ℕ) (s0 : PState W N) : PState W N × List W :=
  (List.range num_steps).foldl
    (fun acc t =>
      let r := projectStep adam wnoise nrm t acc.1
      (r.1, acc.2 ++ [r.2]))
    (s0, [])

/-- `return w_out.repeat([1, G.mapping.num_ws, 1])` (line 220): every
per-step snapshot is broadcast-replicated across the `num_ws` synthesis
layers. -/
def project {W N : Type} [Add W]
    (adam : ℕ → PState W N → W → PState W N) (wnoise : ℕ → W) (nrm : N → N)
    (num_ws num_steps : ℕ) (s0 : PState W N) : List (List W) :=
  ((runLoop adam wnoise nrm num_steps s0).2).map (List.replicate num_ws)

/-- The loop state at the start of iteration `t`. -/
def stateAt {W N : Type} [Add W]
    (adam : ℕ → PState W N → W → PState W N) (wnoise : ℕ → W) (nrm : N → N)
    (s0 : PState W N) : ℕ → PState W N
  | 0 => s0
  | t + 1 => (projectStep adam wnoise nrm t (stateAt adam wnoise nrm s0 t)).1

lemma runLoop_spec {W N : Type} [Add W]
    (adam : ℕ → PState W N → W → PState W N) (wnoise : ℕ → W) (nrm : N → N)
    (s0 : PState W N) (n : ℕ) :
    runLoop adam wnoise nrm n s0 =
      (stateAt adam wnoise nrm s0 n,
       (List.range n).map
         (fun t => (projectStep adam wnoise nrm t (stateAt adam wnoise nrm s0 t)).2)) := by
  induction n with
  | zero => rfl
  | succ n ih =>
    unfold runLoop at ih ⊢
    rw [List.range_succ, List.foldl_append, ih, List.map_append]
    rfl

/-- Claim C4: the returned trajectory has exactly `num_steps` entries (for
every update function — the loop has no early stopping); the entry at index
`t` is the latent as left by the optimizer update of step `t` (the transient
Gaussian perturbation `wnoise t` enters only the forward-pass argument of
`adam`, never the stored snapshot); and each entry is broadcast-replicated
across all `num_ws` synthesis layers. -/
theorem project_trajectory {W N : Type} [Add W]
    (adam : ℕ → PState W N → W → PState W N) (wnoise : ℕ → W) (nrm : N → N)
    (num_ws n : ℕ) (s0 : PState W N) :
    (project adam wnoise nrm num_ws n s0).length = n ∧
    (∀ t, t < n →
      (project adam wnoise nrm num_ws n s0)[t]? =
        some (List.replicate num_ws
          ((adam t (stateAt adam wnoise nrm s0 t)
            ((stateAt adam wnoise nrm s0 t).w + wnoise t)).w))) := by
  constructor
  · simp [project, runLoop_spec]
  · intro t ht
    unfold project
    rw [runLoop_spec]
    simp only [List.getElem?_map, List.getElem?_range ht, Option.map_some]
    rfl

def adamEx : ℕ → PState ℤ ℤ → ℤ → PState ℤ ℤ :=
  fun t s ws => ⟨ws + (t : ℤ), s.noise⟩

def wnoiseEx : ℕ → ℤ := fun _ => 1

/-- Witness for C4 on a concrete two-step run over `ℤ`. -/
theorem project_trajectory_witness :
    (project adamEx wnoiseEx id 2 2 ⟨0, 0⟩).length = 2 ∧
    (project adamEx wnoiseEx id 2 2 ⟨0, 0⟩)[1]? =
      some (List.replicate 2
        ((adamEx 1 (stateAt adamEx wnoiseEx id ⟨0, 0⟩ 1)
          ((stateAt adamEx wnoiseEx id ⟨0, 0⟩ 1).w + wnoiseEx 1)).w)) := by
  exact ⟨(project_trajectory adamEx wnoiseEx id 2 2 ⟨0, 0⟩).1,
    (project_trajectory adamEx wnoiseEx id 2 2 ⟨0, 0⟩).2 1 (by norm_num)⟩

/-! ## Frame condition of `project` (projector.py lines 70-71, 126-138)

`G = copy.deepcopy(G).eval().requires_grad_(False)` (line 70) rebinds the
local name to a deep copy, so the caller's generator object is never touched.
The optimizer's parameter list is `[w_opt] + list(noise_bufs.values())`
(lines 126-129) — it contains the latent and the copy's noise buffers, never
the generator's weights (frozen by `requires_grad_(False)`) and never the
VGG16 weights (`vgg16.eval()`, used only for forward passes).  Modelled by an
explicit environment holding the caller's generator (weights + noise buffers)
and the perceptual network's weights; the loop runs on the latent and on the
copy's freshly re-initialized noise buffers (lines 136-137). -/

structure Gen (GW NT : Type) where
  weights : GW
  noise : NT

structure RunEnv (GW NT VW : Type) where
  g : Gen GW NT
  vggWeights : VW

/-- `project` with the surrounding environment made explicit: returns the
(unchanged) environment, the mutated deep copy, and the trajectory. -/
def projectEnv {W GW NT VW : Type} [Add W]
    (env : RunEnv GW NT VW) (initNoise : NT)
    (adam : ℕ → PState W NT → W → PState W NT) (wnoise : ℕ → W) (nrm : NT → NT)
    (num_ws n : ℕ) (w0 : W) :
    RunEnv GW NT VW × Gen GW NT × List (List W) :=
  let gcopy := env.g
  let r := runLoop adam wnoise nrm n ⟨w0, initNoise⟩
  (env, ⟨gcopy.weights, r.1.noise⟩, (r.2).map (List.replicate num_ws))

/-- Claim C10: after `project` returns, the caller's generator (weights and
noise buffers) and the perceptual network's weights are exactly as before —
only the deep copy's noise buffers and the local latent were optimized — and
even the copy's weights are never updated. -/
theorem projectEnv_frame {W GW NT VW : Type} [Add W]
    (env : RunEnv GW NT VW) (initNoise : NT)
    (adam : ℕ → PState W NT → W → PState W NT) (wnoise : ℕ → W) (nrm : NT → NT)
    (num_ws n : ℕ) (w0 : W) :
    (projectEnv env initNoise adam wnoise nrm num_ws n w0).1 = env ∧
    (projectEnv env initNoise adam wnoise nrm num_ws n w0).1.g.weights
      = env.g.weights ∧
    (projectEnv env initNoise adam wnoise nrm num_ws n w0).1.g.noise
      = env.g.noise ∧
    (projectEnv env initNoise adam wnoise nrm num_ws n w0).1.vggWeights
      = env.vggWeights ∧
    (projectEnv env initNoise adam wnoise nrm num_ws n w0).2.1.weights
      = env.g.weights :=
  ⟨rfl, rfl, rfl, rfl, rfl⟩

/-! ## Noise buffer re-normalization (projector.py lines 214-218)

`with torch.no_grad():`
`    for buf in noise_bufs.values():`
`        buf -= buf.mean()`
`        buf *= buf.square().mean().rsqrt()`

A buffer is flattened to a `List K`; `rsqrt` of the float library is the
parameter `rsqrtF`, instantiated with `fun x => (Real.sqrt x)⁻¹`. -/

def listMean {K : Type} [Field K] (v : List K) : K :=
  v.sum / (v.length : K)

def listMeanSq {K : Type} [Field K] (v : List K) : K :=
  (v.map (fun x => x * x)).sum / (v.length : K)

def normalizeBuf {K : Type} [Field K] (rsqrtF : K → K) (v : List K) : List K :=
  let c := v.map (fun x => x - listMean v)
  c.map (fun x => x * rsqrtF (listMeanSq c))

lemma sum_map_sub_const {K : Type} [Field K] (v : List K) (m : K) :
    (v.map (fun x => x - m)).sum = v.sum - (v.length : K) * m := by
  induction v with
  | nil => simp
  | cons x xs ih =>
    simp only [List.map_cons, List.sum_cons, ih, List.length_cons]
    push_cast
    ring

lemma sum_map_mul_const {K : Type} [Field K] (v : List K) (k : K) :
    (v.map (fun x => x * k)).sum = v.sum * k := by
  induction v with
  | nil => simp
  | cons x xs ih => simp [ih]; ring

lemma listMean_map_mul_const {K : Type} [Field K] (v : List K) (k : K) :
    listMean (v.map (fun x => x * k)) = listMean v * k := by
  unfold listMean
  rw [List.length_map, sum_map_mul_const]
  ring

lemma sumsq_map_mul_const {K : Type} [Field K] (v : List K) (k : K) :
    ((v.map (fun x => x * k)).map (fun x => x * x)).sum
      = (v.map (fun x => x * x)).sum * (k * k) := by
  induction v with
  | nil => simp
  | cons x xs ih =>
    simp only [List.map_cons, List.sum_cons]
    rw [ih]
    ring

lemma listMeanSq_map_mul_const {K : Type} [Field K] (v : List K) (k : K) :
    listMeanSq (v.map (fun x => x * k)) = listMeanSq v * (k * k) := by
  unfold listMeanSq
  rw [List.length_map, sumsq_map_mul_const]
  ring

lemma listMean_centered (v : List ℝ) (hv : v ≠ []) :
    listMean (v.map (fun x => x - listMean v)) = 0 := by
  have hn : (v.length : ℝ) ≠ 0 := by
    have hl : v.length ≠ 0 := by
      simpa [List.length_eq_zero] using hv
    exact Nat.cast_ne_zero.mpr hl
  unfold listMean
  rw [List.length_map, sum_map_sub_const]
  field_simp

lemma normalizeBuf_mean (rsqrtF : ℝ → ℝ) (v : List ℝ)
    (hv : v ≠ []) :
    listMean (normalizeBuf rsqrtF v) = 0 := by
  unfold normalizeBuf
  rw [listMean_map_mul_const, listMean_centered v hv, zero_mul]

lemma listMeanSq_nonneg (v : List ℝ) : 0 ≤ listMeanSq v := by
  unfold listMeanSq
  apply div_nonneg
  · apply List.sum_nonneg
    intro x hx
    rcases List.mem_map.mp hx with ⟨y, _, rfl⟩
    exact mul_self_nonneg y
  · exact Nat.cast_nonneg _

lemma normalizeBuf_meanSq (v : List ℝ)
    (h : listMeanSq (v.map (fun x => x - listMean v)) ≠ 0) :
    listMeanSq (normalizeBuf (fun x => (Real.sqrt x)⁻¹) v) = 1 := by
  unfold normalizeBuf
  rw [listMeanSq_map_mul_const]
  set s := listMeanSq (v.map (fun x => x - listMean v)) with hs
  have hpos : 0 < s := lt_of_le_of_ne (listMeanSq_nonneg _) (Ne.symm h)
  have hsqrt : Real.sqrt s * Real.sqrt s = s := Real.mul_self_sqrt hpos.le
  have hne : Real.sqrt s ≠ 0 := by
    intro h0
    rw [h0, mul_zero] at hsqrt
    exact h hsqrt.symm
  field_simp

/-- Claim C5: loop invariant — at the end of every iteration `t` of the
optimization loop (i.e. after `t+1` iterations, the last action of each being
the in-place re-normalization of lines 215-218), every noise buffer has mean
exactly `0` and mean squared value exactly `1`, provided the optimizer update
never leaves a buffer empty or constant (for a centered all-zero buffer the
float library's `rsqrt` returns `inf`, which the claim's tolerance cannot
absorb). -/
theorem noise_renormalized_every_step {W : Type} [Add W]
    (adam : ℕ → PState W (List (List ℝ)) → W → PState W (List (List ℝ)))
    (wnoise : ℕ → W) (s0 : PState W (List (List ℝ))) (n : ℕ)
    (hndeg : ∀ t s ws, ∀ v ∈ (adam t s ws).noise,
      v ≠ [] ∧ listMeanSq (v.map (fun x => x - listMean v)) ≠ 0) :
    ∀ t, t < n →
      ∀ b ∈ (runLoop adam wnoise
          (fun bufs => bufs.map (normalizeBuf (fun x => (Real.sqrt x)⁻¹)))
          (t + 1) s0).1.noise,
        listMean b = 0 ∧ listMeanSq b = 1 := by
  intro t ht b hb
  rw [runLoop_spec] at hb
  simp only [stateAt, projectStep] at hb
  rcases List.mem_map.mp hb with ⟨v, hv, rfl⟩
  obtain ⟨h1, h2⟩ := hndeg t _ _ v hv
  exact ⟨normalizeBuf_mean _ v h1, normalizeBuf_meanSq v h2⟩

def adamC5 : ℕ → PState ℝ (List (List ℝ)) → ℝ → PState ℝ (List (List ℝ)) :=
  fun _ s _ => ⟨s.w, [[1, -1]]⟩

/-- Witness for C5: one iteration with an update producing the single buffer
`[1, -1]`; the re-normalized buffer has mean `0` and mean square `1`. -/
theorem noise_renormalized_every_step_witness :
    listMean (normalizeBuf (fun x => (Real.sqrt x)⁻¹) [1, -1]) = 0 ∧
    listMeanSq (normalizeBuf (fun x => (Real.sqrt x)⁻¹) [1, -1]) = 1 := by
  have hndeg : ∀ t s ws, ∀ v ∈ (adamC5 t s ws).noise,
      v ≠ [] ∧ listMeanSq (v.map (fun x => x - listMean v)) ≠ 0 := by
    intro t s ws v hv
    simp only [adamC5, List.mem_singleton] at hv
    subst hv
    refine ⟨by simp, ?_⟩
    norm_num [listMean, listMeanSq]
  have hmem : normalizeBuf (fun x => (Real.sqrt x)⁻¹) [1, -1] ∈
      (runLoop adamC5 (fun _ => (0 : ℝ))
        (fun bufs => bufs.map (normalizeBuf (fun x => (Real.sqrt x)⁻¹)))
        (0 + 1) ⟨0, []⟩).1.noise := by
    rw [runLoop_spec]
    simp [stateAt, projectStep, adamC5]
  exact noise_renormalized_every_step adamC5 (fun _ => (0 : ℝ)) ⟨0, []⟩ 1 hndeg
    0 (by norm_num) _ hmem

/-! ## Multi-layer feature traversal (projector.py lines 29-40)

`model.layers.named_modules()` is a list of `(name, module)` pairs traversed
in order (the first entry has the empty name and is skipped by `if name:`);
each module is a partial function `T → Option T` (`none` models a raised
exception); the running `inputs` is replaced by each successful output; the
`except BaseException: break` makes a failing module end the traversal with
the `result` dictionary accumulated so far. -/

def vggLoop {T : Type} (modules : List (String × (T → Option T))) (inputs : T)
    (layers : List String) (result : List (String × T)) : List (String × T) :=
  match modules with
  | [] => result
  | (name, layer) :: rest =>
    if name = "" then vggLoop rest inputs layers result
    else
      match layer inputs with
      | none => result
      | some outputs =>
        vggLoop rest outputs layers
          (if name ∈ layers then result ++ [(name, outputs)] else result)

def vgg16_multi_layers_output {T : Type}
    (modules : List (String × (T → Option T))) (inputs : T)
    (layers : List String) : List (String × T) :=
  vggLoop modules inputs layers []

/-- Sequential evaluation of a module chain: `some v` iff every (non-empty
named) module application succeeds, feeding each the previous output. -/
def chainEval {T : Type} (modules : List (String × (T → Option T)))
    (inputs : T) : Option T :=
  match modules with
  | [] => some inputs
  | (name, layer) :: rest =>
    if name = "" then chainEval rest inputs
    else
      match layer inputs with
      | none => none
      | some outputs => chainEval rest outputs

lemma vggLoop_keys {T : Type} (modules : List (String × (T → Option T)))
    (inputs : T) (layers : List String) (acc : List (String × T)) :
    ∀ p ∈ vggLoop modules inputs layers acc, p ∈ acc ∨ p.1 ∈ layers := by
  induction modules generalizing inputs acc with
  | nil => intro p hp; exact Or.inl hp
  | cons hd rest ih =>
    intro p hp
    obtain ⟨name, layer⟩ := hd
    by_cases hname : name = ""
    · rw [vggLoop, if_pos hname] at hp
      exact ih inputs acc p hp
    · rw [vggLoop, if_neg hname] at hp
      cases hlay : layer inputs with
      | none => rw [hlay] at hp; exact Or.inl hp
      | some outputs =>
        rw [hlay] at hp
        dsimp only at hp
        by_cases hmem : name ∈ layers
        · rw [if_pos hmem] at hp
          rcases ih outputs _ p hp with h | h
          · rcases List.mem_append.mp h with h | h
            · exact Or.inl h
            · rcases List.mem_singleton.mp h with rfl
              exact Or.inr hmem
          · exact Or.inr h
        · rw [if_neg hmem] at hp
          exact ih outputs acc p hp

lemma vggLoop_append_of_chainEval {T : Type}
    (front : List (String × (T → Option T))) (x v : T)
    (h : chainEval front x = some v) :
    ∀ (rest : List (String × (T → Option T))) (layers : List String)
      (acc : List (String × T)),
      vggLoop (front ++ rest) x layers acc =
        vggLoop rest v layers (vggLoop front x layers acc) := by
  induction front generalizing x with
  | nil =>
    intro rest layers acc
    rw [chainEval] at h
    cases h
    rfl
  | cons hd tl ih =>
    intro rest layers acc
    obtain ⟨name, layer⟩ := hd
    by_cases hname : name = ""
    · rw [chainEval, if_pos hname] at h
      rw [List.cons_append, vggLoop, if_pos hname, vggLoop, if_pos hname]
      exact ih x h rest layers acc
    · rw [chainEval, if_neg hname] at h
      cases hlay : layer x with
      | none => rw [hlay] at h; cases h
      | some outputs =>
        rw [hlay] at h
        rw [List.cons_append, vggLoop, if_neg hname, hlay, vggLoop,
          if_neg hname, hlay]
        exact ih outputs h rest layers _

/-- Claim C8: the traversal feeds each named submodule the previous output in
order; every key of the returned mapping is one of the requested layer names;
and if a submodule raises on its input, the traversal stops and returns
exactly the outputs already captured (the result of traversing the successful
prefix alone) instead of propagating the error. -/
theorem vgg16_multi_layers_output_spec {T : Type}
    (modules : List (String × (T → Option T))) (x : T) (layers : List String) :
    (∀ p ∈ vgg16_multi_layers_output modules x layers, p.1 ∈ layers) ∧
    (∀ (front back : List (String × (T → Option T))) (name : String)
        (f : T → Option T) (v : T),
      chainEval front x = some v → ¬ name = "" → f v = none →
      vgg16_multi_layers_output (front ++ (name, f) :: back) x layers =
        vgg16_multi_layers_output front x layers) := by
  constructor
  · intro p hp
    rcases vggLoop_keys modules x layers [] p hp with h | h
    · cases h
    · exact h
  · intro front back name f v hchain hname hf
    unfold vgg16_multi_layers_output
    rw [vggLoop_append_of_chainEval front x v hchain, vggLoop, if_neg hname, hf]

def frontEx : List (String × (ℤ → Option ℤ)) :=
  [("", fun _ => none), ("conv1", fun t => some (t + 1))]

def failEx : ℤ → Option ℤ := fun _ => none

def backEx : List (String × (ℤ → Option ℤ)) := [("conv2", fun t => some t)]

/-- Witness for C8: a traversal whose third module raises returns exactly the
captures of the successful prefix, and its keys are among the requested
names. -/
theorem vgg16_multi_layers_output_spec_witness :
    (chainEval frontEx (0 : ℤ) = some 1 ∧ ¬ "bad" = "" ∧ failEx 1 = none) ∧
    vgg16_multi_layers_output (frontEx ++ ("bad", failEx) :: backEx) (0 : ℤ)
        ["conv1", "conv2"] =
      vgg16_multi_layers_output frontEx (0 : ℤ) ["conv1", "conv2"] := by
  refine ⟨⟨rfl, by decide, rfl⟩, ?_⟩
  exact (vgg16_multi_layers_output_spec
      (frontEx ++ ("bad", failEx) :: backEx) 0 ["conv1", "conv2"]).2
    frontEx backEx "bad" failEx 1 rfl (by decide) rfl

/-! ## Latent sampling seed (projector.py lines 76, 81-87)

`z_samples = np.random.RandomState(123).randn(w_avg_samples, G.z_dim)`:
the sample batch is produced by a fresh PRNG constructed from the hard-coded
seed `123` (modelled by applying the abstract seeded sampler `randn` to
`123`), independent of the ambient global NumPy state (modelled by the
`globalState` argument, which the definition ignores exactly as the source
does).  The samples then pass through the generator's mapping network
(parameter `mapping`) and into the mean/std computation of lines 84-87. -/

def z_samples {M : Type} (randn : ℕ → M) (_globalState : ℕ) : M :=
  randn 123

def latentStats {M K : Type} [Field K] (N C : ℕ) (sqrtF : K → K)
    (randn : ℕ → M) (mapping : M → Fin N → Fin C → K) (globalState : ℕ) :
    (Fin C → K) × K :=
  let w := mapping (z_samples randn globalState)
  (wAvg N C w, w_std sqrtF N C w)

/-- Claim C9: the latent statistics sampling uses the fixed seed `123`, so any
two runs — whatever the ambient random state of each — produce identical
sample batches and identical latent mean and standard deviation. -/
theorem latentStats_reproducible {M K : Type} [Field K] (N C : ℕ)
    (sqrtF : K → K) (randn : ℕ → M) (mapping : M → Fin N → Fin C → K)
    (g₁ g₂ : ℕ) :
    z_samples randn g₁ = z_samples randn g₂ ∧
    latentStats N C sqrtF randn mapping g₁ =
      latentStats N C sqrtF randn mapping g₂ :=
  ⟨rfl, rfl⟩

/-! ## Learning-rate schedule (projector.py lines 145-150)

`lr_ramp = min(1.0, (1.0 - t) / lr_rampdown_length)`
`lr_ramp = 0.5 - 0.5 * np.cos(lr_ramp * np.pi)`
`lr_ramp = lr_ramp * min(1.0, t / lr_rampup_length)`
`lr = initial_learning_rate * lr_ramp`

with `t = step / num_steps`; the float library's cosine and `np.pi` are the
parameters `cosf` and `pi`, instantiated with `Real.cos` and `Real.pi`. -/

def effLR {K : Type} [LinearOrderedField K] (cosf : K → K) (pi : K)
    (initial_learning_rate lr_rampdown_length lr_rampup_length : K)
    (step num_steps : ℕ) : K :=
  let t : K := (step : K) / (num_steps : K)
  let lr_ramp1 := min 1 ((1 - t) / lr_rampdown_length)
  let lr_ramp2 := (1 : K) / 2 - cosf (lr_ramp1 * pi) / 2
  let lr_ramp := lr_ramp2 * min 1 (t / lr_rampup_length)
  initial_learning_rate * lr_ramp

/-- Claim C3: with the default ramp fractions (`lr_rampdown_length = 1/4`,
`lr_rampup_length = 1/20`) the effective learning rate is exactly `0` at step
`0`, at most `ilr * 40 / num_steps^2` (a small epsilon times
`initial_learning_rate`, about `4e-5 * ilr` at the default 1000 steps) at
step `num_steps - 1`, and exactly `initial_learning_rate` at the midpoint
step where `t / num_steps = 1/2`. -/
theorem effLR_schedule (ilr : ℝ) (n : ℕ) (hilr : 0 ≤ ilr) (hn : 4 ≤ n) :
    effLR Real.cos Real.pi ilr (1/4) (1/20) 0 n = 0 ∧
    effLR Real.cos Real.pi ilr (1/4) (1/20) (n - 1) n ≤ ilr * (40 / (n : ℝ) ^ 2) ∧
    (∀ m : ℕ, 2 * m = n → effLR Real.cos Real.pi ilr (1/4) (1/20) m n = ilr) := by
  have hn0 : (0 : ℝ) < (n : ℝ) := by
    have : 0 < n := by omega
    exact_mod_cast this
  refine ⟨?_, ?_, ?_⟩
  · simp only [effLR, Nat.cast_zero, zero_div]
    rw [min_eq_right (by norm_num : (0:ℝ) ≤ 1), mul_zero, mul_zero]
  · simp only [effLR]
    have hcast : ((n - 1 : ℕ) : ℝ) = (n : ℝ) - 1 := by
      have h1n : (1:ℕ) ≤ n := by omega
      rw [Nat.cast_sub h1n]
      norm_num
    rw [hcast]
    have ht1 : (1 : ℝ) - ((n:ℝ) - 1)/(n:ℝ) = 1/(n:ℝ) := by field_simp
    rw [ht1]
    have hr1 : (1/(n:ℝ))/(1/4) = 4/(n:ℝ) := by
      field_simp
    rw [hr1]
    have hmin1 : min (1:ℝ) (4/(n:ℝ)) = 4/(n:ℝ) :=
      min_eq_right ((div_le_one hn0).mpr (by exact_mod_cast hn))
    rw [hmin1]
    have hmin2 : min (1:ℝ) ((((n:ℝ)-1)/(n:ℝ))/(1/20)) = 1 := by
      apply min_eq_left
      rw [one_div (20:ℝ), div_inv_eq_mul, div_mul_eq_mul_div, le_div_iff₀ hn0]
      have hn4 : (4:ℝ) ≤ (n:ℝ) := by exact_mod_cast hn
      nlinarith
    rw [hmin2, mul_one]
    apply mul_le_mul_of_nonneg_left _ hilr
    have hx := Real.one_sub_sq_div_two_le_cos (x := 4/(n:ℝ) * Real.pi)
    have hx2 : 1/2 - Real.cos (4/(n:ℝ)*Real.pi)/2 ≤ (4/(n:ℝ)*Real.pi)^2/4 := by
      linarith
    refine hx2.trans ?_
    have hexp : (4/(n:ℝ)*Real.pi)^2/4 = 4*Real.pi^2/(n:ℝ)^2 := by
      field_simp
      ring
    rw [hexp]
    apply div_le_div_of_nonneg_right ?_ (by positivity)
    nlinarith [Real.pi_lt_d2, Real.pi_pos]
  · intro m hm
    simp only [effLR]
    have hm0 : (0:ℝ) < (m:ℝ) := by
      have : 0 < m := by omega
      exact_mod_cast this
    have ht : (m:ℝ)/(n:ℝ) = 1/2 := by
      have hn2 : (n:ℝ) = 2*(m:ℝ) := by exact_mod_cast hm.symm
      rw [hn2]
      field_simp
      ring
    rw [ht]
    have h1 : min (1:ℝ) ((1 - 1/2)/(1/4)) = 1 := by norm_num
    rw [h1, one_mul, Real.cos_pi]
    have h2 : min (1:ℝ) ((1/2)/(1/20)) = 1 := by norm_num
    rw [h2]
    norm_num

/-- Witness for C3 at the source's default `num_steps = 1000` and
`initial_learning_rate = 1`. -/
theorem effLR_schedule_witness :
    ((0:ℝ) ≤ 1 ∧ (4:ℕ) ≤ 1000 ∧ 2 * 500 = 1000) ∧
    (effLR Real.cos Real.pi 1 (1/4) (1/20) 0 1000 = 0 ∧
     effLR Real.cos Real.pi 1 (1/4) (1/20) 999 1000 ≤ 1 * (40 / (1000 : ℝ) ^ 2) ∧
     effLR Real.cos Real.pi 1 (1/4) (1/20) 500 1000 = 1) := by
  refine ⟨⟨by norm_num, by norm_num, by norm_num⟩, ?_, ?_, ?_⟩
  · exact (effLR_schedule 1 1000 (by norm_num) (by norm_num)).1
  · exact (effLR_schedule 1 1000 (by norm_num) (by norm_num)).2.1
  · exact (effLR_schedule 1 1000 (by norm_num) (by norm_num)).2.2 500 (by norm_num)
